import Mathlib

/-!
Verification of the VIRGIL thread-pool library (arcana-lab/virgil).

This file gives a shallow embedding of the parts of the library that the
checked properties talk about:

- the thread-safe queues (ThreadSafeQueue.hpp, ThreadSafeMutexQueue.hpp,
  ThreadSafeSpinLockQueue.hpp): state is the underlying std::queue contents
  plus the m_valid flag; locks and condition variables synchronise access
  but have no effect on the sequential state, so they are not modelled;
- the machine-topology model (Architecture.hpp): PU, Core, Socket, Cache
  and the hard-coded Architecture constructor;
- the task-record memory pool of ThreadPoolForC (ThreadPoolForC.hpp):
  the memoryPoolAvailability vector together with the lease scan performed
  by submitAndDetach and the release path performed by worker;
- the weight-balanced scheduler (Scheduler.hpp) over the multi-queue pool
  (ThreadPoolForCMultiQueues.hpp).

Machine integers: task_weight_t, pu_strength_t and size_t are 64-bit
unsigned; arithmetic on them is modelled as Nat with an explicit mod 2^64
at every operation where the C++ computation can wrap.
-/

namespace Virgil

/-- Modulus of the 64-bit unsigned types (size_t, uint64_t) used throughout. -/
def W64 : Nat := 2 ^ 64

/-- Largest value of task_weight_t, i.e. std::numeric_limits of size_t. -/
def size_t_max : Nat := W64 - 1

/-- Apply f to the element at position n, leaving the list unchanged when n
is out of range.  Used to model in-place updates of a std::vector element
through an index or pointer. -/
def modifyAt {α : Type} (f : α → α) : Nat → List α → List α
  | _, [] => []
  | 0, a :: l => f a :: l
  | n + 1, a :: l => a :: modifyAt f n l

theorem modifyAt_length {α : Type} (f : α → α) (n : Nat) (l : List α) :
    (modifyAt f n l).length = l.length := by
  induction l generalizing n with
  | nil => cases n <;> rfl
  | cons a l ih =>
    cases n with
    | zero => rfl
    | succ n => simp [modifyAt, ih]

theorem get?_modifyAt_self {α : Type} (f : α → α) (n : Nat) (l : List α) :
    (modifyAt f n l).get? n = (l.get? n).map f := by
  induction l generalizing n with
  | nil => simp [modifyAt]
  | cons a l ih =>
    cases n with
    | zero => rfl
    | succ n => simpa [modifyAt] using ih n

theorem get?_modifyAt_ne {α : Type} (f : α → α) (n m : Nat) (l : List α)
    (h : m ≠ n) : (modifyAt f n l).get? m = l.get? m := by
  induction l generalizing n m with
  | nil => simp [modifyAt]
  | cons a l ih =>
    cases n with
    | zero =>
      cases m with
      | zero => exact absurd rfl h
      | succ m => rfl
    | succ n =>
      cases m with
      | zero => rfl
      | succ m =>
        simpa [modifyAt] using ih n m (fun hh => h (by omega))

theorem modifyAt_eq_self {α : Type} (f : α → α) (n : Nat) (l : List α)
    (h : ∀ a, l.get? n = some a → f a = a) : modifyAt f n l = l := by
  induction l generalizing n with
  | nil => cases n <;> rfl
  | cons a l ih =>
    cases n with
    | zero =>
      have := h a rfl
      simp [modifyAt, this]
    | succ n =>
      simp only [modifyAt, List.cons.injEq, true_and]
      exact ih n (fun b hb => h b hb)

/-! ## Thread-safe queues

The sequential state shared by ThreadSafeQueue and its subclasses: the
std::queue contents (front of the std::queue is the head of the list) and
the m_valid flag, which starts true. -/

structure ThreadSafeQueue (α : Type) where
  m_queue : List α
  m_valid : Bool
deriving DecidableEq, Repr

namespace ThreadSafeQueue

/-- Model of ThreadSafeQueue internal_push: append the value at the back. -/
def push {α : Type} (q : ThreadSafeQueue α) (v : α) : ThreadSafeQueue α :=
  { q with m_queue := q.m_queue ++ [v] }

/-- Model of ThreadSafeQueue tryPop (base class, ThreadSafeQueue.hpp lines
120-130): return false when the queue is empty or not valid, otherwise pop
the front into out. The returned pair is (value written to out, new state). -/
def tryPop {α : Type} (q : ThreadSafeQueue α) : Option α × ThreadSafeQueue α :=
  if q.m_queue.isEmpty || !q.m_valid then
    (none, q)
  else
    match q.m_queue with
    | [] => (none, q)
    | out :: rest => (some out, { q with m_queue := rest })

/-- Model of ThreadSafeQueue invalidate: early return when already invalid,
otherwise clear m_valid. The condition-variable notifications have no state
effect. -/
def invalidate {α : Type} (q : ThreadSafeQueue α) : ThreadSafeQueue α :=
  if !q.m_valid then q else { q with m_valid := false }

end ThreadSafeQueue

/-- Model of ThreadSafeMutexQueue tryPop (ThreadSafeMutexQueue.hpp lines
128-138): identical sequential behaviour to the base-class tryPop, the only
difference in the source being which notifications fire. -/
def ThreadSafeMutexQueue.tryPop {α : Type} (q : ThreadSafeQueue α) :
    Option α × ThreadSafeQueue α :=
  if q.m_queue.isEmpty || !q.m_valid then
    (none, q)
  else
    match q.m_queue with
    | [] => (none, q)
    | out :: rest => (some out, { q with m_queue := rest })

/-- Model of ThreadSafeMutexQueue invalidate (ThreadSafeMutexQueue.hpp lines
294-317): early return when already invalid, otherwise set m_valid false and
notify both condition variables (no state effect). -/
def ThreadSafeMutexQueue.invalidate {α : Type} (q : ThreadSafeQueue α) :
    ThreadSafeQueue α :=
  if !q.m_valid then q else { q with m_valid := false }

/-- Model of ThreadSafeSpinLockQueue invalidate (ThreadSafeSpinLockQueue.hpp
lines 273-292): same guarded clearing of m_valid under the spinlock. -/
def ThreadSafeSpinLockQueue.invalidate {α : Type} (q : ThreadSafeQueue α) :
    ThreadSafeQueue α :=
  if !q.m_valid then q else { q with m_valid := false }

/-- C2, counterexample: a queue holding one value is invalidated; the claim
says the value is still returned by tryPop with result true, but both cited
tryPop implementations return false (none here) and leave the value stuck in
the queue. -/
theorem tryPop_invalidated_nonempty_cex :
    (ThreadSafeMutexQueue.tryPop
        (ThreadSafeMutexQueue.invalidate
          (ThreadSafeQueue.push (⟨[], true⟩ : ThreadSafeQueue Nat) 5))).1 = none
    ∧ (ThreadSafeQueue.tryPop
        (ThreadSafeQueue.invalidate
          (ThreadSafeQueue.push (⟨[], true⟩ : ThreadSafeQueue Nat) 5))).1 = none
    ∧ (ThreadSafeMutexQueue.invalidate
        (ThreadSafeQueue.push (⟨[], true⟩ : ThreadSafeQueue Nat) 5)).m_queue = [5] := by
  decide

/-- C2, amended: after invalidate, tryPop always returns false and leaves the
state unchanged, for the mutex queue and the base queue alike; the enqueued
values remain stored in m_queue but can no longer be popped. -/
theorem tryPop_invalidated_returns_none {α : Type} (q : ThreadSafeQueue α) :
    ThreadSafeMutexQueue.tryPop (ThreadSafeMutexQueue.invalidate q)
        = (none, ThreadSafeMutexQueue.invalidate q)
    ∧ ThreadSafeQueue.tryPop (ThreadSafeQueue.invalidate q)
        = (none, ThreadSafeQueue.invalidate q)
    ∧ (ThreadSafeMutexQueue.invalidate q).m_queue = q.m_queue := by
  cases q with
  | mk l v =>
    cases v <;>
      simp [ThreadSafeMutexQueue.tryPop, ThreadSafeMutexQueue.invalidate,
        ThreadSafeQueue.tryPop, ThreadSafeQueue.invalidate]

/-- C2, amended-claim witness at a one-element queue. -/
theorem tryPop_invalidated_returns_none_witness :
    ThreadSafeMutexQueue.tryPop
        (ThreadSafeMutexQueue.invalidate (⟨[3], true⟩ : ThreadSafeQueue Nat))
        = (none, ThreadSafeMutexQueue.invalidate (⟨[3], true⟩ : ThreadSafeQueue Nat))
    ∧ ThreadSafeQueue.tryPop
        (ThreadSafeQueue.invalidate (⟨[3], true⟩ : ThreadSafeQueue Nat))
        = (none, ThreadSafeQueue.invalidate (⟨[3], true⟩ : ThreadSafeQueue Nat))
    ∧ (ThreadSafeMutexQueue.invalidate (⟨[3], true⟩ : ThreadSafeQueue Nat)).m_queue
        = (⟨[3], true⟩ : ThreadSafeQueue Nat).m_queue :=
  tryPop_invalidated_returns_none (⟨[3], true⟩ : ThreadSafeQueue Nat)

/-- C8: invalidate is idempotent, for the mutex queue and for the spin-lock
queue: a second call finds m_valid already false and returns early, leaving
the whole state (validity flag and contents) exactly as after one call. -/
theorem invalidate_idempotent {α : Type} (q : ThreadSafeQueue α) :
    ThreadSafeMutexQueue.invalidate (ThreadSafeMutexQueue.invalidate q)
        = ThreadSafeMutexQueue.invalidate q
    ∧ ThreadSafeSpinLockQueue.invalidate (ThreadSafeSpinLockQueue.invalidate q)
        = ThreadSafeSpinLockQueue.invalidate q := by
  cases q with
  | mk l v =>
    cases v <;>
      simp [ThreadSafeMutexQueue.invalidate, ThreadSafeSpinLockQueue.invalidate]

/-- C8, witness at a one-element valid queue. -/
theorem invalidate_idempotent_witness :
    ThreadSafeMutexQueue.invalidate
        (ThreadSafeMutexQueue.invalidate (⟨[2], true⟩ : ThreadSafeQueue Nat))
        = ThreadSafeMutexQueue.invalidate (⟨[2], true⟩ : ThreadSafeQueue Nat)
    ∧ ThreadSafeSpinLockQueue.invalidate
        (ThreadSafeSpinLockQueue.invalidate (⟨[2], true⟩ : ThreadSafeQueue Nat))
        = ThreadSafeSpinLockQueue.invalidate (⟨[2], true⟩ : ThreadSafeQueue Nat) :=
  invalidate_idempotent (⟨[2], true⟩ : ThreadSafeQueue Nat)


/-! ## Machine-topology model (Architecture.hpp)

Pointers between topology objects are modelled as indices; a Cache world is
a list of caches indexed by cache id. PU, Core, Socket hold the fields the
library reads. -/

structure PU where
  id_ : Nat
  isolated_strength_ : Nat
deriving DecidableEq, Repr

/-- Model of PU get_id. -/
def PU.get_id (pu : PU) : Nat := pu.id_

/-- Model of the zero-argument PU get_power: the isolated strength. -/
def PU.get_power (pu : PU) : Nat := pu.isolated_strength_

structure Core where
  pus_ : List PU
deriving DecidableEq, Repr

/-- Model of Core get_pus. -/
def Core.get_pus (c : Core) : List PU := c.pus_

structure Socket where
  cores_ : List Core
deriving DecidableEq, Repr

/-- Model of Socket get_cores. -/
def Socket.get_cores (s : Socket) : List Core := s.cores_

structure Architecture where
  sockets_ : List Socket
  max_pu_strength : Nat
deriving DecidableEq, Repr

/-- Model of Architecture num_cores: the core count computed by
count_cores_and_pus_, one increment per core of each socket. -/
def Architecture.num_cores (a : Architecture) : Nat :=
  a.sockets_.foldl (fun acc s => s.get_cores.foldl (fun acc2 _ => acc2 + 1) acc) 0

/-- Model of Architecture num_pus: the pu count computed by
count_cores_and_pus_, adding the pu-vector size of each core. -/
def Architecture.num_pus (a : Architecture) : Nat :=
  a.sockets_.foldl
    (fun acc s => s.get_cores.foldl (fun acc2 c => acc2 + c.get_pus.length) acc) 0

/-- Model of Architecture get_pus: the triple loop over sockets, cores and
pus, pushing each pu in order. The function-local static cache in the source
only memoises this enumeration and is not modelled. -/
def Architecture.get_pus (a : Architecture) : List PU :=
  a.sockets_.foldl
    (fun acc s => s.get_cores.foldl (fun acc2 c => acc2 ++ c.get_pus) acc) []

/-- Model of the Architecture constructor (Architecture.hpp lines 268-284).
It takes no descriptor of any kind: it always builds one socket holding one
core with the two hard-coded PUs (24, strength 100000) and
(26, strength 70000), and sets max_pu_strength to 100000. -/
def Architecture.construct : Architecture :=
  { sockets_ := [⟨[⟨[⟨24, 100000⟩, ⟨26, 70000⟩]⟩]⟩], max_pu_strength := 100000 }

/-- C10: the constructor ignores any external topology description (it has no
parameter at all) and always produces the fixed machine: two PUs with ids 24
and 26 and isolated strengths 100000 and 70000, max_pu_strength 100000,
num_pus 2, num_cores 1, and get_pus enumerating exactly those two PUs in
that order. -/
theorem architecture_fixed_machine :
    Architecture.construct.num_pus = 2
    ∧ Architecture.construct.num_cores = 1
    ∧ Architecture.construct.get_pus = [⟨24, 100000⟩, ⟨26, 70000⟩]
    ∧ Architecture.construct.get_pus.map PU.get_id = [24, 26]
    ∧ Architecture.construct.get_pus.map PU.get_power = [100000, 70000]
    ∧ Architecture.construct.max_pu_strength = 100000 := by
  decide

/-! ## Caches and associate_lower_cache -/

structure Cache where
  lower_cache_ : Option Nat
  higher_caches_ : List Nat
deriving DecidableEq, Repr

/-- Model of Cache associate_lower_cache (Architecture.hpp lines 229-237),
acting on a world w of caches addressed by index; c is this cache, x the
argument cache. First the lower_cache_ pointer of c is set to x; then the
higher_caches_ vector of x is scanned for c, returning early when found,
and c is appended otherwise. In the source both pointers are valid, which
corresponds to c and x being in range. -/
def Cache.associate_lower_cache (w : List Cache) (c x : Nat) : List Cache :=
  let w1 := modifyAt (fun cc => { cc with lower_cache_ := some x }) c w
  match w1.get? x with
  | none => w1
  | some xc =>
    if c ∈ xc.higher_caches_ then w1
    else modifyAt (fun cc => { cc with higher_caches_ := cc.higher_caches_ ++ [c] }) x w1

theorem cache_set_lower_self (a : Cache) (x : Nat) (h : a.lower_cache_ = some x) :
    ({ a with lower_cache_ := some x } : Cache) = a := by
  cases a
  simp_all

theorem associate_lower_cache_of_mem (w : List Cache) (c x : Nat) (xc : Cache)
    (h1 : (modifyAt (fun cc => { cc with lower_cache_ := some x }) c w).get? x = some xc)
    (h2 : c ∈ xc.higher_caches_) :
    Cache.associate_lower_cache w c x
      = modifyAt (fun cc => { cc with lower_cache_ := some x }) c w := by
  simp only [Cache.associate_lower_cache, h1, h2, if_true]

theorem associate_lower_cache_of_not_mem (w : List Cache) (c x : Nat) (xc : Cache)
    (h1 : (modifyAt (fun cc => { cc with lower_cache_ := some x }) c w).get? x = some xc)
    (h2 : c ∉ xc.higher_caches_) :
    Cache.associate_lower_cache w c x
      = modifyAt (fun cc => { cc with higher_caches_ := cc.higher_caches_ ++ [c] }) x
          (modifyAt (fun cc => { cc with lower_cache_ := some x }) c w) := by
  simp only [Cache.associate_lower_cache, h1, h2, if_false]

/-- C7: calling associate_lower_cache twice with the same argument leaves the
world of caches, in particular the lower_cache_ pointer of c and the
higher_caches_ vector of x, exactly as one call does; no duplicate of c is
appended to the higher caches of x. -/
theorem associate_lower_cache_idempotent (w : List Cache) (c x : Nat)
    (hc : c < w.length) (hx : x < w.length) :
    Cache.associate_lower_cache (Cache.associate_lower_cache w c x) c x
      = Cache.associate_lower_cache w c x := by
  have hwc : w.get? c = some (w.get ⟨c, hc⟩) := List.get?_eq_get hc
  have hw1c : (modifyAt (fun cc => { cc with lower_cache_ := some x }) c w).get? c
      = some { w.get ⟨c, hc⟩ with lower_cache_ := some x } := by
    rw [get?_modifyAt_self, hwc]; rfl
  have hx1 : x < (modifyAt (fun cc => { cc with lower_cache_ := some x }) c w).length := by
    rw [modifyAt_length]; exact hx
  obtain ⟨y1, hy1⟩ :
      ∃ y1, (modifyAt (fun cc => { cc with lower_cache_ := some x }) c w).get? x = some y1 :=
    ⟨_, List.get?_eq_get hx1⟩
  by_cases hm : c ∈ y1.higher_caches_
  · -- the first call only sets the lower-cache pointer of c
    rw [associate_lower_cache_of_mem w c x y1 hy1 hm]
    have hself :
        modifyAt (fun cc => { cc with lower_cache_ := some x }) c
            (modifyAt (fun cc => { cc with lower_cache_ := some x }) c w)
          = modifyAt (fun cc => { cc with lower_cache_ := some x }) c w := by
      apply modifyAt_eq_self
      intro a ha
      rw [hw1c] at ha
      cases ha
      exact cache_set_lower_self _ x rfl
    have hy1b :
        (modifyAt (fun cc => { cc with lower_cache_ := some x }) c
            (modifyAt (fun cc => { cc with lower_cache_ := some x }) c w)).get? x
          = some y1 := by rw [hself]; exact hy1
    rw [associate_lower_cache_of_mem _ c x y1 hy1b hm, hself]
  · -- the first call also appends c to the higher caches of x
    rw [associate_lower_cache_of_not_mem w c x y1 hy1 hm]
    have hw2c :
        ∃ a, (modifyAt (fun cc => { cc with higher_caches_ := cc.higher_caches_ ++ [c] }) x
            (modifyAt (fun cc => { cc with lower_cache_ := some x }) c w)).get? c = some a
          ∧ a.lower_cache_ = some x := by
      by_cases hcx : c = x
      · subst hcx
        refine ⟨{ lower_cache_ := some c,
                  higher_caches_ := (w.get ⟨c, hc⟩).higher_caches_ ++ [c] }, ?_, rfl⟩
        rw [get?_modifyAt_self, hw1c]
        rfl
      · refine ⟨{ w.get ⟨c, hc⟩ with lower_cache_ := some x }, ?_, rfl⟩
        rw [get?_modifyAt_ne _ _ _ _ hcx]
        exact hw1c
    obtain ⟨a2, ha2, ha2l⟩ := hw2c
    have hself2 :
        modifyAt (fun cc => { cc with lower_cache_ := some x }) c
            (modifyAt (fun cc => { cc with higher_caches_ := cc.higher_caches_ ++ [c] }) x
              (modifyAt (fun cc => { cc with lower_cache_ := some x }) c w))
          = modifyAt (fun cc => { cc with higher_caches_ := cc.higher_caches_ ++ [c] }) x
              (modifyAt (fun cc => { cc with lower_cache_ := some x }) c w) := by
      apply modifyAt_eq_self
      intro a ha
      rw [ha2] at ha
      cases ha
      exact cache_set_lower_self _ x ha2l
    have hy2 :
        (modifyAt (fun cc => { cc with lower_cache_ := some x }) c
            (modifyAt (fun cc => { cc with higher_caches_ := cc.higher_caches_ ++ [c] }) x
              (modifyAt (fun cc => { cc with lower_cache_ := some x }) c w))).get? x
          = some { y1 with higher_caches_ := y1.higher_caches_ ++ [c] } := by
      rw [hself2, get?_modifyAt_self, hy1]; rfl
    have hmem2 : c ∈ ({ y1 with higher_caches_ := y1.higher_caches_ ++ [c] } : Cache).higher_caches_ := by
      simp
    rw [associate_lower_cache_of_mem _ c x _ hy2 hmem2, hself2]

/-- C7, witness: a two-cache world with both indices valid. -/
theorem associate_lower_cache_idempotent_witness :
    Cache.associate_lower_cache
        (Cache.associate_lower_cache [⟨none, []⟩, ⟨none, []⟩] 0 1) 0 1
      = Cache.associate_lower_cache [⟨none, []⟩, ⟨none, []⟩] 0 1 :=
  associate_lower_cache_idempotent [⟨none, []⟩, ⟨none, []⟩] 0 1
    (by decide) (by decide)

/-! ## Task-record memory pool (ThreadPoolForC.hpp)

State of the record pool: memoryPoolAvailability mirrors the availability
vector (one flag per record ever allocated; the record at index i is the
ThreadCTask constructed with ID i, so memoryPool itself carries no extra
information and the number of records ever allocated is the length of the
availability vector). The fields leased and maxOutstanding are
specification-level bookkeeping that does not exist in the source: leased
lists the ids currently handed out by submitAndDetach and not yet released
by a worker, and maxOutstanding records the largest number of concurrently
outstanding tasks observed so far. -/

structure ThreadPoolForCState where
  memoryPoolAvailability : List Bool
  leased : List Nat
  maxOutstanding : Nat
deriving DecidableEq, Repr

/-- Model of the scan in ThreadPoolForC submitAndDetach (lines 156-163): the
loop walks the availability vector upwards and, for every available entry,
takes its record as cTask and clears the flag - there is no break, so every
available entry is cleared and the last one wins. The result is the index of
the record left in cTask (none when no entry was available) together with
the updated vector; an entry that was false stays false, so the head of the
updated vector is false in both branches that clear or keep it. -/
def leaseScan : List Bool → Option Nat × List Bool
  | [] => (none, [])
  | b :: rest =>
    let r := leaseScan rest
    match r.1 with
    | some j => (some (j + 1), false :: r.2)
    | none => if b then (some 0, false :: r.2) else (none, b :: r.2)

/-- Model of ThreadPoolForC submitAndDetach (lines 147-183), restricted to
the memory-pool effect: lease the record found by the scan, or allocate a
new record with id poolSize and push an unavailable flag for it. Returns the
leased id. The queue push and pool expansion that follow do not touch the
memory pool. -/
def ThreadPoolForC.submitAndDetach (s : ThreadPoolForCState) :
    Nat × ThreadPoolForCState :=
  let scan := leaseScan s.memoryPoolAvailability
  match scan.1 with
  | some i =>
    (i, { memoryPoolAvailability := scan.2,
          leased := i :: s.leased,
          maxOutstanding := max s.maxOutstanding (s.leased.length + 1) })
  | none =>
    let poolSize := s.memoryPoolAvailability.length
    (poolSize,
     { memoryPoolAvailability := scan.2 ++ [false],
       leased := poolSize :: s.leased,
       maxOutstanding := max s.maxOutstanding (s.leased.length + 1) })

/-- The state update of the release path in ThreadPoolForC worker (lines
199-208), without its assertions: set the availability flag of the record
and retire the id from the leased bookkeeping. -/
def applyRelease (s : ThreadPoolForCState) (taskID : Nat) : ThreadPoolForCState :=
  { memoryPoolAvailability := s.memoryPoolAvailability.set taskID true,
    leased := s.leased.erase taskID,
    maxOutstanding := s.maxOutstanding }

/-- Model of the release path in ThreadPoolForC worker (lines 199-208)
including its assertions: assert(taskID < memoryPool.size()) and
assert(!memoryPoolAvailability[taskID]) must both hold, otherwise the
program aborts (modelled as none). -/
def ThreadPoolForC.workerRelease (s : ThreadPoolForCState) (taskID : Nat) :
    Option ThreadPoolForCState :=
  match s.memoryPoolAvailability.get? taskID with
  | some false => some (applyRelease s taskID)
  | _ => none

/-- An operation on the pool: a submit (lease) or a worker completion
(release of a given record id). -/
inductive PoolOp where
  | submit : PoolOp
  | release : Nat → PoolOp
deriving DecidableEq, Repr

/-- Run a sequence of pool operations through the assert-checked semantics;
none when a release fails its assertions. -/
def runPool : List PoolOp → ThreadPoolForCState → Option ThreadPoolForCState
  | [], s => some s
  | PoolOp.submit :: ops, s => runPool ops (ThreadPoolForC.submitAndDetach s).2
  | PoolOp.release i :: ops, s =>
    match ThreadPoolForC.workerRelease s i with
    | some s1 => runPool ops s1
    | none => none

/-- The pool state at pool construction: no records, nothing leased. -/
def initPool : ThreadPoolForCState := ⟨[], [], 0⟩

/-- C3: the lease scan has no break, so it clears the availability of every
free record while leasing only the last; the leaked records are never found
again and a fresh allocation follows although the peak number of outstanding
tasks was never exceeded. After submit, submit, release 0, release 1,
submit, submit, three records have been allocated while at most two tasks
were ever concurrently outstanding, violating the bound
allocated <= maxOutstanding. -/
theorem pool_allocation_exceeds_max_outstanding :
    (runPool [PoolOp.submit, PoolOp.submit, PoolOp.release 0, PoolOp.release 1,
        PoolOp.submit, PoolOp.submit] initPool).map
        (fun s => (s.memoryPoolAvailability.length, s.maxOutstanding)) = some (3, 2)
    ∧ ¬ (3 ≤ 2) := by
  decide

/-- Runs of the pool in which every release targets a record that is
currently leased (handed to a worker by a prior submit and not yet
released), as the worker loop guarantees; releases are applied without
consulting the assertions, which claim C6 then proves to hold. -/
inductive LeasedRun : ThreadPoolForCState → List PoolOp → ThreadPoolForCState → Prop
  | nil (s : ThreadPoolForCState) : LeasedRun s [] s
  | submit (s s2 : ThreadPoolForCState) (ops : List PoolOp)
      (h : LeasedRun (ThreadPoolForC.submitAndDetach s).2 ops s2) :
      LeasedRun s (PoolOp.submit :: ops) s2
  | release (s s2 : ThreadPoolForCState) (i : Nat) (ops : List PoolOp)
      (hmem : i ∈ s.leased)
      (h : LeasedRun (applyRelease s i) ops s2) :
      LeasedRun s (PoolOp.release i :: ops) s2

/-- Every entry of the availability vector left by the lease scan is false. -/
theorem leaseScan_all_false (l : List Bool) : ∀ b ∈ (leaseScan l).2, b = false := by
  induction l with
  | nil => intro b hb; cases hb
  | cons a l ih =>
    intro b hb
    by_cases hsome : ∃ j, (leaseScan l).1 = some j
    · obtain ⟨j, hj⟩ := hsome
      simp only [leaseScan, hj, List.mem_cons] at hb
      rcases hb with hb | hb
      · exact hb
      · exact ih b hb
    · have hn : (leaseScan l).1 = none := by
        cases hh : (leaseScan l).1 with
        | none => rfl
        | some j => exact absurd ⟨j, hh⟩ hsome
      cases a with
      | true =>
        simp only [leaseScan, hn, if_true, List.mem_cons] at hb
        rcases hb with hb | hb
        · exact hb
        · exact ih b hb
      | false =>
        simp only [leaseScan, hn, Bool.false_eq_true, if_false, List.mem_cons] at hb
        rcases hb with hb | hb
        · exact hb
        · exact ih b hb

/-- The lease scan preserves the length of the availability vector. -/
theorem leaseScan_length (l : List Bool) : (leaseScan l).2.length = l.length := by
  induction l with
  | nil => rfl
  | cons a l ih =>
    cases hh : (leaseScan l).1 with
    | none => cases a <;> simp [leaseScan, hh, ih]
    | some j => simp [leaseScan, hh, ih]

/-- When the lease scan returns an index, that index is in range and its
entry was available. -/
theorem leaseScan_some (l : List Bool) (i : Nat) (h : (leaseScan l).1 = some i) :
    l.get? i = some true := by
  induction l generalizing i with
  | nil => cases h
  | cons a l ih =>
    cases hh : (leaseScan l).1 with
    | some j =>
      simp only [leaseScan, hh] at h
      cases h
      simpa using ih j hh
    | none =>
      cases a with
      | true =>
        simp only [leaseScan, hh, if_true] at h
        cases h
        rfl
      | false =>
        simp only [leaseScan, hh, if_false] at h
        cases h

/-- The record-pool invariant behind the release assertions: leased ids are
pairwise distinct, and every leased id points at an in-range availability
entry that is false. -/
def PoolInv (s : ThreadPoolForCState) : Prop :=
  s.leased.Nodup ∧ ∀ i ∈ s.leased, s.memoryPoolAvailability.get? i = some false

theorem poolInv_submit (s : ThreadPoolForCState) (h : PoolInv s) :
    PoolInv (ThreadPoolForC.submitAndDetach s).2 := by
  obtain ⟨hnd, hav⟩ := h
  cases hh : (leaseScan s.memoryPoolAvailability).1 with
  | some i =>
    have hi : s.memoryPoolAvailability.get? i = some true := leaseScan_some _ i hh
    have hnotleased : i ∉ s.leased := fun hmem => by
      rw [hav i hmem] at hi
      cases hi
    have hlen : i < s.memoryPoolAvailability.length := by
      have := List.get?_eq_some.1 hi
      exact this.1
    constructor
    · simp only [ThreadPoolForC.submitAndDetach, hh]
      exact List.nodup_cons.2 ⟨hnotleased, hnd⟩
    · intro j hj
      simp only [ThreadPoolForC.submitAndDetach, hh] at hj ⊢
      have hjlen : j < (leaseScan s.memoryPoolAvailability).2.length := by
        rw [leaseScan_length]
        rcases List.mem_cons.1 hj with hj | hj
        · exact hj ▸ hlen
        · exact (List.get?_eq_some.1 (hav j hj)).1
      obtain ⟨b, hb⟩ : ∃ b, (leaseScan s.memoryPoolAvailability).2.get? j = some b :=
        ⟨_, List.get?_eq_get hjlen⟩
      have : b = false := leaseScan_all_false _ b (List.get?_mem hb)
      rw [hb, this]
  | none =>
    have hscan : (leaseScan s.memoryPoolAvailability).2.length
        = s.memoryPoolAvailability.length := leaseScan_length _
    constructor
    · simp only [ThreadPoolForC.submitAndDetach, hh]
      refine List.nodup_cons.2 ⟨fun hmem => ?_, hnd⟩
      have := (List.get?_eq_some.1 (hav _ hmem)).1
      omega
    · intro j hj
      simp only [ThreadPoolForC.submitAndDetach, hh] at hj ⊢
      rcases List.mem_cons.1 hj with hj | hj
      · subst hj
        rw [List.get?_append_right (by omega)]
        rw [hscan]
        simp
      · have hjlen : j < (leaseScan s.memoryPoolAvailability).2.length := by
          rw [hscan]
          exact (List.get?_eq_some.1 (hav j hj)).1
        rw [List.get?_append hjlen]
        obtain ⟨b, hb⟩ : ∃ b, (leaseScan s.memoryPoolAvailability).2.get? j = some b :=
          ⟨_, List.get?_eq_get hjlen⟩
        have : b = false := leaseScan_all_false _ b (List.get?_mem hb)
        rw [hb, this]

theorem poolInv_release (s : ThreadPoolForCState) (i : Nat) (h : PoolInv s) :
    PoolInv (applyRelease s i) := by
  obtain ⟨hnd, hav⟩ := h
  constructor
  · exact hnd.erase i
  · intro j hj
    have hji : j ≠ i := (List.Nodup.mem_erase_iff hnd).1 hj |>.1
    have hjmem : j ∈ s.leased := (List.Nodup.mem_erase_iff hnd).1 hj |>.2
    simp only [applyRelease]
    rw [List.get?_set_ne _ _ (fun hh => hji hh.symm)]
    exact hav j hjmem

theorem poolInv_reachable (s0 : ThreadPoolForCState) (ops : List PoolOp)
    (s : ThreadPoolForCState) (h0 : PoolInv s0) (hrun : LeasedRun s0 ops s) :
    PoolInv s := by
  induction hrun with
  | nil s => exact h0
  | submit s s2 ops h ih => exact ih (poolInv_submit s h0)
  | release s s2 i ops hmem h ih => exact ih (poolInv_release s i h0)

/-- C6: in every execution in which workers release only records that a
prior submit leased and that were not yet released, the release-path
assertions hold: the record id is within the pool and its availability flag
is false, so workerRelease succeeds and performs exactly the state update;
conversely, releasing a record whose availability flag is already true fails
the assertion, modelled as none. -/
theorem worker_release_assertion_safety :
    (∀ ops s, LeasedRun initPool ops s → ∀ i ∈ s.leased,
        i < s.memoryPoolAvailability.length
        ∧ s.memoryPoolAvailability.get? i = some false
        ∧ ThreadPoolForC.workerRelease s i = some (applyRelease s i))
    ∧ (∀ s i, s.memoryPoolAvailability.get? i = some true →
        ThreadPoolForC.workerRelease s i = none) := by
  constructor
  · intro ops s hrun i hi
    have hinv : PoolInv s :=
      poolInv_reachable initPool ops s ⟨List.nodup_nil, by intro j hj; cases hj⟩ hrun
    have hfalse := hinv.2 i hi
    refine ⟨(List.get?_eq_some.1 hfalse).1, hfalse, ?_⟩
    simp only [ThreadPoolForC.workerRelease, hfalse]
  · intro s i htrue
    simp only [ThreadPoolForC.workerRelease, htrue]

/-- C6, witness: after one submit from the fresh pool, record 0 is leased and
its release passes the assertions; releasing record 0 of a pool whose flag 0
is already true fails the assertion. -/
theorem worker_release_assertion_safety_witness :
    (0 < (⟨[false], [0], 1⟩ : ThreadPoolForCState).memoryPoolAvailability.length
      ∧ (⟨[false], [0], 1⟩ : ThreadPoolForCState).memoryPoolAvailability.get? 0 = some false
      ∧ ThreadPoolForC.workerRelease ⟨[false], [0], 1⟩ 0
          = some (applyRelease ⟨[false], [0], 1⟩ 0))
    ∧ ThreadPoolForC.workerRelease ⟨[true], [], 0⟩ 0 = none := by
  constructor
  · exact worker_release_assertion_safety.1 [PoolOp.submit] ⟨[false], [0], 1⟩
      (LeasedRun.submit initPool ⟨[false], [0], 1⟩ [] (LeasedRun.nil _))
      0 (by simp)
  · exact worker_release_assertion_safety.2 ⟨[true], [], 0⟩ 0 rfl

/-! ## Scheduler (Scheduler.hpp) over ThreadPoolForCMultiQueues

State of one Scheduler instance together with the queue vector of the
multi-queue pool it drives. history_ and trueHistory mirror the two
PUWorkHistory vectors; last_cpu mirrors the function-local static counter in
find_best_pu (initialised to 20 on first use; it is shared between all
schedulers in the source, which matters only when several instances exist).
The queue elements are task tokens standing for the leased ThreadCTask
pointer carrying the submitted function and argument. -/

structure PUWorkHistory where
  pu : PU
  accumulated_work : Nat
deriving DecidableEq, Repr

/-- The candidate cost computed in the selection loop of find_best_pu (line
97): accumulated_work + weight * max_pu_strength / power, all in size_t
arithmetic, so the product and the sum wrap modulo 2^64. -/
def costOf (ms weight : Nat) (h : PUWorkHistory) : Nat :=
  (h.accumulated_work + weight * ms % W64 / h.pu.get_power) % W64

/-- The locals of the selection loop in find_best_pu: the best_hist pointer
(modelled as an index into history_), best_pu, lowest_work, and the counter
i. The local j is dead in the source (its only use is commented out) and is
not modelled. -/
structure SelState where
  best_hist : Option Nat
  best_pu : Nat
  lowest_work : Nat
  i : Nat
deriving DecidableEq, Repr

/-- Model of the selection loop of find_best_pu (lines 90-107): for each
history element compute total_work and remember the element, its pu id and
its cost whenever total_work is strictly below the lowest seen so far. -/
def selLoop (ms weight : Nat) : List PUWorkHistory → SelState → SelState
  | [], st => st
  | h :: rest, st =>
    let total_work := costOf ms weight h
    if total_work < st.lowest_work then
      selLoop ms weight rest ⟨some st.i, h.pu.get_id, total_work, st.i + 1⟩
    else
      selLoop ms weight rest { st with i := st.i + 1 }

structure SchedState where
  history_ : List PUWorkHistory
  trueHistory : List PUWorkHistory
  arch_ : Architecture
  last_cpu : Nat
  cWorkQueues : List (ThreadSafeQueue Nat)
deriving DecidableEq, Repr

/-- Model of Scheduler find_best_pu (Scheduler.hpp lines 84-125). The loop
starts from best_hist = nullptr, best_pu = 0 and lowest_work = the maximum
of task_weight_t. Afterwards the accumulated work of the winner is bumped by
weight * max_pu_strength / power of the winner (size_t arithmetic); when the
loop never updated best_hist the source dereferences a null pointer, which
is undefined and modelled as none. Then the static round-robin counter
produces the returned id: it is reset from 28 to 20, returned, and advanced
by 2; finally trueHistory[(ret - 20) / 2] is bumped by the weight argument.
For returned ids 24 and 26 that index (2 or 3) is out of range for the
two-entry trueHistory of the default architecture - an undefined vector
write in the source, modelled as leaving the vector unchanged. -/
def Scheduler.find_best_pu (s : SchedState) (weight : Nat) :
    Option (Nat × SchedState) :=
  let st := selLoop s.arch_.max_pu_strength weight s.history_
    ⟨none, 0, size_t_max, 0⟩
  match st.best_hist with
  | none => none
  | some j =>
    let history1 := modifyAt
      (fun h => { h with accumulated_work :=
        (h.accumulated_work + weight * s.arch_.max_pu_strength % W64 / h.pu.get_power) % W64 })
      j s.history_
    let ret := if s.last_cpu = 28 then 20 else s.last_cpu
    let trueHistory1 := modifyAt
      (fun h => { h with accumulated_work := (h.accumulated_work + weight) % W64 })
      ((ret - 20) / 2) s.trueHistory
    some (ret, { s with history_ := history1, trueHistory := trueHistory1,
                        last_cpu := ret + 2 })

/-- Model of the three-argument ThreadPoolForCMultiQueues submitAndDetach
(ThreadPoolForCMultiQueues.hpp lines 166-198), restricted to its queue
effect: the task record is pushed onto queue li mod number-of-queues. The
getTask lease that precedes the push touches only the record pool modelled
in the previous section. -/
def ThreadPoolForCMultiQueues.submitAndDetach (qs : List (ThreadSafeQueue Nat))
    (task li : Nat) : List (ThreadSafeQueue Nat) :=
  modifyAt (fun q => q.push task) (li % qs.length) qs

/-- Model of Scheduler submitAndDetach (Scheduler.hpp lines 72-80): multiply
the weight by 1000 (size_t arithmetic), pick the pu via find_best_pu, submit
the task to the pool under locality island best_core, and return best_core.
The locality_island argument is ignored by the source. -/
def Scheduler.submitAndDetach (s : SchedState) (task weight locality_island : Nat) :
    Option (Nat × SchedState) :=
  match Scheduler.find_best_pu s (1000 * weight % W64) with
  | none => none
  | some (best_core, s1) =>
    some (best_core,
      { s1 with cWorkQueues :=
          ThreadPoolForCMultiQueues.submitAndDetach s1.cWorkQueues task best_core })

/-- Model of the Scheduler constructor (Scheduler.hpp lines 60-70): one
zeroed history entry per pu of the architecture, in get_pus order, in both
history vectors; the static round-robin counter starts at 20. -/
def Scheduler.construct (arch : Architecture) (qs : List (ThreadSafeQueue Nat)) :
    SchedState :=
  { history_ := arch.get_pus.map (fun pu => ⟨pu, 0⟩),
    trueHistory := arch.get_pus.map (fun pu => ⟨pu, 0⟩),
    arch_ := arch,
    last_cpu := 20,
    cWorkQueues := qs }

/-- A freshly constructed scheduler over the default architecture, with one
empty work queue per thread of a four-thread pool. -/
def schedInit : SchedState :=
  Scheduler.construct Architecture.construct (List.replicate 4 ⟨[], true⟩)

/-- Modelled from the spec: the pu id that section 4.E of the specification
says submitAndDetach returns - compute candidate_cost = accumulated_work +
scaled_weight * max_strength / isolated_strength for every history entry
with scaled_weight = 1000 * weight, pick the minimum with ties broken
towards the lowest topology index, and return the pu id of that winner.
Used only to compare the specified return value against the source. -/
def spec_submit_returned_pu (s : SchedState) (weight : Nat) : Option Nat :=
  let costs := s.history_.map (fun h =>
    h.accumulated_work + 1000 * weight * s.arch_.max_pu_strength / h.pu.get_power)
  match costs.minimum? with
  | none => none
  | some m => (s.history_.get? (costs.indexOf m)).map (fun h => h.pu.get_id)

/-- C1: at the very first submission of a fresh scheduler over the default
architecture, with weight 1, the source returns 20 - the value of the static
round-robin counter - although the argmin winner specified for the return
value is the PU with id 24 (both candidate costs start from zero history, so
the tie-break selects topology index 0). The computed argmin is only used to
bump history_; the returned id comes from the counter cycling through 20,
22, 24, 26. -/
theorem scheduler_returns_round_robin_not_argmin :
    (Scheduler.submitAndDetach schedInit 0 1 0).map (fun p => p.1) = some 20
    ∧ spec_submit_returned_pu schedInit 1 = some 24
    ∧ (20 : Nat) ≠ 24 := by
  decide

/-- C5, counterexample: in a scheduler state whose first history entry holds
accumulated_work 2^64 - 1, submitting weight 1 makes the accumulator
addition overflow; the source stores the wrapped value 999 instead of
detecting the overflow, and no history entry is halved (the second entry
stays 10). -/
theorem accumulator_overflow_wraps_cex :
    (Scheduler.submitAndDetach
        { history_ := [⟨⟨24, 100000⟩, W64 - 1⟩, ⟨⟨26, 70000⟩, 10⟩],
          trueHistory := [⟨⟨24, 100000⟩, 0⟩, ⟨⟨26, 70000⟩, 0⟩],
          arch_ := Architecture.construct, last_cpu := 20,
          cWorkQueues := [⟨[], true⟩] } 0 1 0).map
        (fun p => p.2.history_.map PUWorkHistory.accumulated_work) = some [999, 10]
    ∧ W64 ≤ (W64 - 1) + 1000 * 1 * 100000 / 100000
    ∧ (999 : Nat) = ((W64 - 1) + 1000 * 1 * 100000 / 100000) % W64
    ∧ (999 : Nat) ≠ (W64 - 1) / 2
    ∧ (999 : Nat) ≠ ((W64 - 1) + 1000 * 1 * 100000 / 100000) / 2
    ∧ (10 : Nat) ≠ 10 / 2 := by
  decide

/-- The selection loop computes the argmin of the candidate costs with ties
broken towards the lowest index: either no element beats the incoming
lowest_work and the loop state is unchanged except for the counter, or the
loop returns the first index attaining the minimum cost, which is strictly
below the incoming lowest_work, weakly below every cost in the list, and
strictly below every cost at a smaller index. -/
theorem selLoop_spec (ms w : Nat) (hs : List PUWorkHistory) (st : SelState) :
    (selLoop ms w hs st = { st with i := st.i + hs.length }
       ∧ ∀ h ∈ hs, st.lowest_work ≤ costOf ms w h)
    ∨ (∃ k e, hs.get? k = some e
         ∧ selLoop ms w hs st
             = ⟨some (st.i + k), e.pu.get_id, costOf ms w e, st.i + hs.length⟩
         ∧ costOf ms w e < st.lowest_work
         ∧ (∀ m em, hs.get? m = some em → costOf ms w e ≤ costOf ms w em)
         ∧ (∀ m em, m < k → hs.get? m = some em → costOf ms w e < costOf ms w em)) := by
  induction hs generalizing st with
  | nil =>
    left
    constructor
    · rfl
    · intro h hh
      cases hh
  | cons h rest ih =>
    by_cases hlt : costOf ms w h < st.lowest_work
    · have hstep : selLoop ms w (h :: rest) st
          = selLoop ms w rest ⟨some st.i, h.pu.get_id, costOf ms w h, st.i + 1⟩ := by
        simp [selLoop, hlt]
      rcases ih ⟨some st.i, h.pu.get_id, costOf ms w h, st.i + 1⟩ with
        ⟨heq, hall⟩ | ⟨k, e, hget, heq, hless, hmin, hstrict⟩
      · right
        refine ⟨0, h, rfl, ?_, hlt, ?_, ?_⟩
        · rw [hstep, heq]
          simp only [List.length_cons, SelState.mk.injEq, Option.some.injEq, and_true,
            true_and]
          omega
        · intro m em hgetm
          cases m with
          | zero =>
            simp only [List.get?_cons_zero, Option.some.injEq] at hgetm
            cases hgetm
            exact Nat.le_refl _
          | succ m =>
            simp only [List.get?_cons_succ] at hgetm
            exact hall em (List.get?_mem hgetm)
        · intro m em hmlt hgetm
          exact absurd hmlt (Nat.not_lt_zero m)
      · right
        refine ⟨k + 1, e, by simpa using hget, ?_, Nat.lt_trans hless hlt, ?_, ?_⟩
        · rw [hstep, heq]
          simp only [List.length_cons, SelState.mk.injEq, Option.some.injEq, and_true,
            true_and]
          omega
        · intro m em hgetm
          cases m with
          | zero =>
            simp only [List.get?_cons_zero, Option.some.injEq] at hgetm
            cases hgetm
            exact Nat.le_of_lt hless
          | succ m =>
            simp only [List.get?_cons_succ] at hgetm
            exact hmin m em hgetm
        · intro m em hmlt hgetm
          cases m with
          | zero =>
            simp only [List.get?_cons_zero, Option.some.injEq] at hgetm
            cases hgetm
            exact hless
          | succ m =>
            simp only [List.get?_cons_succ] at hgetm
            exact hstrict m em (by omega) hgetm
    · have hstep : selLoop ms w (h :: rest) st
          = selLoop ms w rest { st with i := st.i + 1 } := by
        simp [selLoop, hlt]
      rcases ih { st with i := st.i + 1 } with
        ⟨heq, hall⟩ | ⟨k, e, hget, heq, hless, hmin, hstrict⟩
      · left
        constructor
        · rw [hstep, heq]
          simp only [List.length_cons, SelState.mk.injEq, and_true, true_and]
          omega
        · intro h2 hh2
          rcases List.mem_cons.1 hh2 with hh2 | hh2
          · subst hh2
            exact Nat.le_of_not_lt hlt
          · exact hall h2 hh2
      · right
        refine ⟨k + 1, e, by simpa using hget, ?_, hless, ?_, ?_⟩
        · rw [hstep, heq]
          simp only [List.length_cons, SelState.mk.injEq, Option.some.injEq, and_true,
            true_and]
          omega
        · intro m em hgetm
          cases m with
          | zero =>
            simp only [List.get?_cons_zero, Option.some.injEq] at hgetm
            cases hgetm
            exact Nat.le_of_lt (Nat.lt_of_lt_of_le hless (Nat.le_of_not_lt hlt))
          | succ m =>
            simp only [List.get?_cons_succ] at hgetm
            exact hmin m em hgetm
        · intro m em hmlt hgetm
          cases m with
          | zero =>
            simp only [List.get?_cons_zero, Option.some.injEq] at hgetm
            cases hgetm
            exact Nat.lt_of_lt_of_le hless (Nat.le_of_not_lt hlt)
          | succ m =>
            simp only [List.get?_cons_succ] at hgetm
            exact hstrict m em (by omega) hgetm

/-- Consequence of the loop lemma at the start state of find_best_pu: a
successful call selects the first index attaining the minimum candidate
cost, bumps exactly that entry of history_ by the wrapped increment, bumps
trueHistory at the round-robin slot, and returns the round-robin counter
value. -/
theorem find_best_pu_spec (s : SchedState) (weight ret : Nat) (s1 : SchedState)
    (hfb : Scheduler.find_best_pu s weight = some (ret, s1)) :
    ∃ k e, s.history_.get? k = some e
      ∧ (∀ m em, s.history_.get? m = some em →
          costOf s.arch_.max_pu_strength weight e
            ≤ costOf s.arch_.max_pu_strength weight em)
      ∧ (∀ m em, m < k → s.history_.get? m = some em →
          costOf s.arch_.max_pu_strength weight e
            < costOf s.arch_.max_pu_strength weight em)
      ∧ ret = (if s.last_cpu = 28 then 20 else s.last_cpu)
      ∧ s1 = { s with
          history_ := modifyAt
            (fun h => { h with accumulated_work :=
              (h.accumulated_work
                + weight * s.arch_.max_pu_strength % W64 / h.pu.get_power) % W64 })
            k s.history_,
          trueHistory := modifyAt
            (fun h => { h with accumulated_work := (h.accumulated_work + weight) % W64 })
            ((ret - 20) / 2) s.trueHistory,
          last_cpu := ret + 2 } := by
  rcases selLoop_spec s.arch_.max_pu_strength weight s.history_ ⟨none, 0, size_t_max, 0⟩ with
    ⟨heq, hall⟩ | ⟨k, e, hget, heq, hless, hmin, hstrict⟩
  · rw [Scheduler.find_best_pu.eq_def] at hfb
    simp only [heq] at hfb
    cases hfb
  · rw [Scheduler.find_best_pu.eq_def] at hfb
    simp only [heq, Nat.zero_add, Option.some.injEq, Prod.mk.injEq] at hfb
    refine ⟨k, e, hget, hmin, hstrict, hfb.1.symm, ?_⟩
    rw [← hfb.2, ← hfb.1]

/-- C4: when neither the weight scaling, the strength product, nor the
accumulator addition wraps, a submission changes exactly one entry of the
scheduler work history: the entry selected as the argmin of the candidate
costs (ties towards the lowest topology index) grows by exactly
1000 * w * max_strength / isolated_strength in integer division, and every
other entry is unchanged. -/
theorem submit_updates_exactly_argmin_winner (s : SchedState)
    (task w li ret : Nat) (s1 : SchedState)
    (hsub : Scheduler.submitAndDetach s task w li = some (ret, s1))
    (hscaled : 1000 * w < W64)
    (hprod : 1000 * w * s.arch_.max_pu_strength < W64)
    (hacc : ∀ h ∈ s.history_, h.accumulated_work
        + 1000 * w * s.arch_.max_pu_strength / h.pu.get_power < W64) :
    ∃ k e, s.history_.get? k = some e
      ∧ (∀ m em, s.history_.get? m = some em →
          e.accumulated_work + 1000 * w * s.arch_.max_pu_strength / e.pu.get_power
            ≤ em.accumulated_work + 1000 * w * s.arch_.max_pu_strength / em.pu.get_power)
      ∧ (∀ m em, m < k → s.history_.get? m = some em →
          e.accumulated_work + 1000 * w * s.arch_.max_pu_strength / e.pu.get_power
            < em.accumulated_work + 1000 * w * s.arch_.max_pu_strength / em.pu.get_power)
      ∧ s1.history_.get? k = some { e with accumulated_work :=
          e.accumulated_work + 1000 * w * s.arch_.max_pu_strength / e.pu.get_power }
      ∧ (∀ m, m ≠ k → s1.history_.get? m = s.history_.get? m) := by
  rw [Scheduler.submitAndDetach.eq_def] at hsub
  cases hfb : Scheduler.find_best_pu s (1000 * w % W64) with
  | none =>
    rw [hfb] at hsub
    cases hsub
  | some p =>
    obtain ⟨ret0, s2⟩ := p
    rw [hfb] at hsub
    simp only [Option.some.injEq, Prod.mk.injEq] at hsub
    obtain ⟨k, e, hget, hmin, hstrict, hret, hs2⟩ :=
      find_best_pu_spec s (1000 * w % W64) ret0 s2 hfb
    have hw : 1000 * w % W64 = 1000 * w := Nat.mod_eq_of_lt hscaled
    have hcost : ∀ m em, s.history_.get? m = some em →
        costOf s.arch_.max_pu_strength (1000 * w % W64) em
          = em.accumulated_work
            + 1000 * w * s.arch_.max_pu_strength / em.pu.get_power := by
      intro m em hm
      rw [costOf, hw, Nat.mod_eq_of_lt hprod,
        Nat.mod_eq_of_lt (hacc em (List.get?_mem hm))]
    have hhist1 : s1.history_ = modifyAt
        (fun h => { h with accumulated_work :=
          (h.accumulated_work
            + (1000 * w % W64) * s.arch_.max_pu_strength % W64 / h.pu.get_power) % W64 })
        k s.history_ := by
      rw [← hsub.2, hs2]
    refine ⟨k, e, hget, ?_, ?_, ?_, ?_⟩
    · intro m em hm
      rw [← hcost k e hget, ← hcost m em hm]
      exact hmin m em hm
    · intro m em hmk hm
      rw [← hcost k e hget, ← hcost m em hm]
      exact hstrict m em hmk hm
    · rw [hhist1, get?_modifyAt_self, hget]
      have he : (1000 * w % W64) * s.arch_.max_pu_strength % W64 =
          1000 * w * s.arch_.max_pu_strength := by
        rw [hw, Nat.mod_eq_of_lt hprod]
      simp only [Option.map_some']
      rw [he, Nat.mod_eq_of_lt (hacc e (List.get?_mem hget))]
    · intro m hm
      rw [hhist1, get?_modifyAt_ne _ _ _ _ hm]

/-- The scheduler state after one weight-1 submission on a fresh scheduler. -/
def schedAfter1 : SchedState :=
  { history_ := [⟨⟨24, 100000⟩, 1000⟩, ⟨⟨26, 70000⟩, 0⟩],
    trueHistory := [⟨⟨24, 100000⟩, 1000⟩, ⟨⟨26, 70000⟩, 0⟩],
    arch_ := Architecture.construct,
    last_cpu := 22,
    cWorkQueues := [⟨[0], true⟩, ⟨[], true⟩, ⟨[], true⟩, ⟨[], true⟩] }

/-- C4, witness: the first weight-1 submission on a fresh scheduler; the
argmin winner is the entry of pu 24 at index 0 and it grows by exactly
1000 * 1 * 100000 / 100000 = 1000. -/
theorem submit_updates_exactly_argmin_winner_witness :
    ∃ k e, schedInit.history_.get? k = some e
      ∧ (∀ m em, schedInit.history_.get? m = some em →
          e.accumulated_work
              + 1000 * 1 * schedInit.arch_.max_pu_strength / e.pu.get_power
            ≤ em.accumulated_work
              + 1000 * 1 * schedInit.arch_.max_pu_strength / em.pu.get_power)
      ∧ (∀ m em, m < k → schedInit.history_.get? m = some em →
          e.accumulated_work
              + 1000 * 1 * schedInit.arch_.max_pu_strength / e.pu.get_power
            < em.accumulated_work
              + 1000 * 1 * schedInit.arch_.max_pu_strength / em.pu.get_power)
      ∧ schedAfter1.history_.get? k = some { e with accumulated_work :=
          e.accumulated_work
            + 1000 * 1 * schedInit.arch_.max_pu_strength / e.pu.get_power }
      ∧ (∀ m, m ≠ k → schedAfter1.history_.get? m = schedInit.history_.get? m) :=
  submit_updates_exactly_argmin_winner schedInit 0 1 0 20 schedAfter1
    (by decide) (by decide) (by decide) (by decide)

/-- C5, amended: every successful submission updates exactly one history
entry, and the update is the unchecked size_t addition of the wrapped
increment, reduced modulo 2^64; no overflow check and no halving of any
entry takes place. -/
theorem accumulated_work_update_wraps (s : SchedState) (task w li ret : Nat)
    (s1 : SchedState)
    (hsub : Scheduler.submitAndDetach s task w li = some (ret, s1)) :
    ∃ k e, s.history_.get? k = some e
      ∧ s1.history_.get? k = some { e with accumulated_work :=
          (e.accumulated_work
            + (1000 * w % W64) * s.arch_.max_pu_strength % W64 / e.pu.get_power) % W64 }
      ∧ (∀ m, m ≠ k → s1.history_.get? m = s.history_.get? m) := by
  rw [Scheduler.submitAndDetach.eq_def] at hsub
  cases hfb : Scheduler.find_best_pu s (1000 * w % W64) with
  | none =>
    rw [hfb] at hsub
    cases hsub
  | some p =>
    obtain ⟨ret0, s2⟩ := p
    rw [hfb] at hsub
    simp only [Option.some.injEq, Prod.mk.injEq] at hsub
    obtain ⟨k, e, hget, hmin, hstrict, hret, hs2⟩ :=
      find_best_pu_spec s (1000 * w % W64) ret0 s2 hfb
    have hhist1 : s1.history_ = modifyAt
        (fun h => { h with accumulated_work :=
          (h.accumulated_work
            + (1000 * w % W64) * s.arch_.max_pu_strength % W64 / h.pu.get_power) % W64 })
        k s.history_ := by
      rw [← hsub.2, hs2]
    refine ⟨k, e, hget, ?_, ?_⟩
    · rw [hhist1, get?_modifyAt_self, hget]
      simp only [Option.map_some']
    · intro m hm
      rw [hhist1, get?_modifyAt_ne _ _ _ _ hm]

/-- C5, amended-claim witness: the first weight-1 submission on a fresh
scheduler updates entry 0 to the wrapped value. -/
theorem accumulated_work_update_wraps_witness :
    ∃ k e, schedInit.history_.get? k = some e
      ∧ schedAfter1.history_.get? k = some { e with accumulated_work :=
          (e.accumulated_work
            + (1000 * 1 % W64) * schedInit.arch_.max_pu_strength % W64
              / e.pu.get_power) % W64 }
      ∧ (∀ m, m ≠ k → schedAfter1.history_.get? m = schedInit.history_.get? m) :=
  accumulated_work_update_wraps schedInit 0 1 0 20 schedAfter1 (by decide)

/-- C9: a submission of weight 0 is not rejected: the scheduler still runs
the selection, pushes the task onto the queue that the returned id maps to
(id modulo the number of queues), and adds the strength-normalized minimum
1000 * 0 * max_strength / power = 0 to the winner, so every accumulated_work
value is unchanged. -/
theorem weight_zero_still_dispatched (s : SchedState) (task li ret : Nat)
    (s1 : SchedState)
    (hq : 0 < s.cWorkQueues.length)
    (hwf : ∀ h ∈ s.history_, h.accumulated_work < W64)
    (hwfT : ∀ h ∈ s.trueHistory, h.accumulated_work < W64)
    (hsub : Scheduler.submitAndDetach s task 0 li = some (ret, s1)) :
    (∃ q, s.cWorkQueues.get? (ret % s.cWorkQueues.length) = some q
        ∧ s1.cWorkQueues.get? (ret % s.cWorkQueues.length)
            = some (q.push task))
    ∧ (∀ m, m ≠ ret % s.cWorkQueues.length →
        s1.cWorkQueues.get? m = s.cWorkQueues.get? m)
    ∧ s1.history_ = s.history_
    ∧ s1.trueHistory = s.trueHistory := by
  rw [Scheduler.submitAndDetach.eq_def] at hsub
  cases hfb : Scheduler.find_best_pu s (1000 * 0 % W64) with
  | none =>
    rw [hfb] at hsub
    cases hsub
  | some p =>
    obtain ⟨ret0, s2⟩ := p
    rw [hfb] at hsub
    simp only [Option.some.injEq, Prod.mk.injEq] at hsub
    obtain ⟨k, e, hget, hmin, hstrict, hret, hs2⟩ :=
      find_best_pu_spec s (1000 * 0 % W64) ret0 s2 hfb
    have hz : 1000 * 0 % W64 = 0 := by norm_num
    have hhist : s2.history_ = s.history_ := by
      rw [hs2]
      apply modifyAt_eq_self
      intro a ha
      have hma : a.accumulated_work < W64 := hwf a (List.get?_mem ha)
      rw [hz]
      simp [Nat.mod_eq_of_lt hma]
    have htrue : s2.trueHistory = s.trueHistory := by
      rw [hs2]
      apply modifyAt_eq_self
      intro a ha
      have hma : a.accumulated_work < W64 := hwfT a (List.get?_mem ha)
      rw [hz]
      simp [Nat.mod_eq_of_lt hma]
    have hqs : s2.cWorkQueues = s.cWorkQueues := by rw [hs2]
    have hr0 : ret0 = ret := hsub.1
    have hq1 : s1.cWorkQueues
        = modifyAt (fun q => q.push task) (ret % s.cWorkQueues.length)
            s.cWorkQueues := by
      rw [← hsub.2, ThreadPoolForCMultiQueues.submitAndDetach, hqs, hr0]
    refine ⟨?_, ?_, ?_, ?_⟩
    · have hlt : ret % s.cWorkQueues.length < s.cWorkQueues.length :=
        Nat.mod_lt _ hq
      refine ⟨s.cWorkQueues.get ⟨_, hlt⟩, List.get?_eq_get hlt, ?_⟩
      rw [hq1, get?_modifyAt_self, List.get?_eq_get hlt]
      simp only [Option.map_some']
    · intro m hm
      rw [hq1, get?_modifyAt_ne _ _ _ _ hm]
    · rw [← hsub.2, hhist]
    · rw [← hsub.2, htrue]

/-- The scheduler state after one weight-0 submission of task token 7 on a
fresh scheduler. -/
def schedAfterZero : SchedState :=
  { history_ := [⟨⟨24, 100000⟩, 0⟩, ⟨⟨26, 70000⟩, 0⟩],
    trueHistory := [⟨⟨24, 100000⟩, 0⟩, ⟨⟨26, 70000⟩, 0⟩],
    arch_ := Architecture.construct,
    last_cpu := 22,
    cWorkQueues := [⟨[7], true⟩, ⟨[], true⟩, ⟨[], true⟩, ⟨[], true⟩] }

/-- C9, witness: submitting task token 7 with weight 0 on a fresh scheduler
pushes the task onto queue 20 mod 4 = 0 and leaves both history vectors
unchanged. -/
theorem weight_zero_still_dispatched_witness :
    (∃ q, schedInit.cWorkQueues.get? (20 % schedInit.cWorkQueues.length) = some q
        ∧ schedAfterZero.cWorkQueues.get? (20 % schedInit.cWorkQueues.length)
            = some (q.push 7))
    ∧ (∀ m, m ≠ 20 % schedInit.cWorkQueues.length →
        schedAfterZero.cWorkQueues.get? m = schedInit.cWorkQueues.get? m)
    ∧ schedAfterZero.history_ = schedInit.history_
    ∧ schedAfterZero.trueHistory = schedInit.trueHistory :=
  weight_zero_still_dispatched schedInit 7 0 20 schedAfterZero
    (by decide) (by decide) (by decide) (by decide)

end Virgil
